import Mathlib

/-!
# Command dispatcher and sorting strategies

A shallow embedding of `src/command_example.cpp` (class `CommandManager`) and of
`src/strategy_example.cpp` (`BubbleSortStrategy::sort`, `QuickSortStrategy::sort`).

## Embedding of `CommandManager`

* A command object (`std::unique_ptr<Command>`) is a value of an arbitrary type `C`
  standing for the object's identity; the virtual interface `Command` is a record
  of functions over `C` and over the outside world `W` the payloads act on.
* `std::queue` is a list with the front at the head (`push` appends at the end),
  `std::stack` is a list with the top at the head.
* `executeCalls` and `undoCalls` record, in order, the objects on which the
  manager has called `execute` and `undo`; they are the execution log and the
  reversal log of the specification.
* The program is embedded at three grains.
  `CommandManager` has each method as a function on the state: one call, run whole,
  with `execute` and `undo` calls that return; the consumer loop is stepped by
  `workerStep`.
  `Program` has every statement that runs outside a lock as a step of its own, the
  entries of `history_` as pointers that may be null, and `execute` calls that may
  throw; its reachable states are those of the threads interleaved as the source
  lets them.
  `Threaded` has `mutex_` explicit.
-/

/-! ## Definitions: the command manager -/

/-- The virtual interface `Command` (lines 12-18): what `execute` and `undo` do to the
outside world `W` and what `getDescription` returns, for each command object. -/
structure Command (C W : Type) where
  execute : C → W → W
  undo : C → W → W
  getDescription : C → W → String

/-- Where the consumer thread stands inside `processCommands`, with the content of
its local variable `cmd`. -/
inductive Worker (C : Type) where
  /-- At the top of the loop, before or inside `condition_.wait` (line 104). -/
  | waiting : Worker C
  /-- Past the locked block with the head of the queue in `cmd` (before line 116). -/
  | holding (cmd : C) : Worker C
  /-- After `cmd->execute()` has returned, before `history_.push` (line 118). -/
  | executed (cmd : C) : Worker C
  /-- After the `return` of line 109. -/
  | returned : Worker C
deriving DecidableEq, Repr

/-- The members of `CommandManager` (lines 86-90; `mutex_` and `condition_` are
accounted for by the atomicity of the steps), the consumer thread, the outside
world, the lines the manager wrote to `std::cout`, and the two call logs. -/
structure CommandManager (C W : Type) where
  history_ : List C
  commandQueue_ : List C
  shouldStop_ : Bool
  worker : Worker C
  world : W
  cout : List String
  executeCalls : List C
  undoCalls : List C
deriving DecidableEq, Repr

namespace CommandManager

variable {C W : Type}

/-- A freshly constructed manager (line 143): empty containers, `shouldStop_ = false`,
the consumer at the top of its loop. -/
def fresh (w : W) : CommandManager C W :=
  { history_ := [], commandQueue_ := [], shouldStop_ := false, worker := Worker.waiting,
    world := w, cout := [], executeCalls := [], undoCalls := [] }

/-- Lines 93-97: `commandQueue_.push(std::move(cmd))` under the lock. -/
def addCommand (cmd : C) (s : CommandManager C W) : CommandManager C W :=
  { s with commandQueue_ := s.commandQueue_ ++ [cmd] }

/-- Lines 134-138: `shouldStop_ = true` under the lock. -/
def stop (s : CommandManager C W) : CommandManager C W :=
  { s with shouldStop_ := true }

/-- Lines 122-132: report an empty history, or move the top of `history_` out,
pop it, print its description and call `undo` on it. -/
def undoLastCommand (V : Command C W) (s : CommandManager C W) : CommandManager C W :=
  match s.history_ with
  | [] => { s with cout := s.cout ++ ["История команд пуста"] }
  | cmd :: rest =>
    { s with
      history_ := rest
      cout := s.cout ++ ["Отмена команды: " ++ V.getDescription cmd s.world]
      world := V.undo cmd s.world
      undoCalls := s.undoCalls ++ [cmd] }

/-- One step of the consumer thread in `processCommands` (lines 99-120); `none` when
the thread cannot move: it is blocked in `condition_.wait` (the predicate of line
105 is false) or the function has returned. -/
def workerStep (V : Command C W) (s : CommandManager C W) : Option (CommandManager C W) :=
  match s.worker with
  | Worker.waiting =>
    if s.shouldStop_ || !s.commandQueue_.isEmpty then
      if s.shouldStop_ && s.commandQueue_.isEmpty then
        some { s with worker := Worker.returned }
      else
        match s.commandQueue_ with
        | cmd :: rest => some { s with commandQueue_ := rest, worker := Worker.holding cmd }
        | [] => none
    else
      none
  | Worker.holding cmd =>
    some { s with
      cout := s.cout ++ ["Выполняется команда: " ++ V.getDescription cmd s.world]
      world := V.execute cmd s.world
      executeCalls := s.executeCalls ++ [cmd]
      worker := Worker.executed cmd }
  | Worker.executed cmd =>
    some { s with history_ := cmd :: s.history_, worker := Worker.waiting }
  | Worker.returned => none

/-- The consumer thread running alone: `processCommands` stepped until it cannot move
or `fuel` steps are done. -/
def processCommands (V : Command C W) : Nat → CommandManager C W → CommandManager C W
  | 0, s => s
  | fuel + 1, s =>
    match workerStep V s with
    | some s' => processCommands V fuel s'
    | none => s

/-- Lines 116-118 for one command: print, `execute`, `history_.push`. -/
def runCommand (V : Command C W) (s : CommandManager C W) (cmd : C) : CommandManager C W :=
  { s with
    history_ := cmd :: s.history_
    cout := s.cout ++ ["Выполняется команда: " ++ V.getDescription cmd s.world]
    world := V.execute cmd s.world
    executeCalls := s.executeCalls ++ [cmd] }

end CommandManager

/-- The marker commands of the specification's concrete scenario: a command is its
marker, `execute` increments a counter, `undo` leaves it. -/
def markerCommand : Command String Nat :=
  { execute := fun _ n => n + 1, undo := fun _ n => n, getDescription := fun c _ => c }

/-- The state of the specification's concrete scenario once the consumer is joined:
on a fresh manager with counter 0, submit "A" then "B", call `stop`, run
`processCommands` (seven steps are enough). -/
def scenarioJoined : CommandManager String Nat :=
  CommandManager.processCommands markerCommand 7
    (CommandManager.stop
      (CommandManager.addCommand "B" (CommandManager.addCommand "A" (CommandManager.fresh 0))))

/-- The concrete scenario as the specification tells it: execution log A, B and
counter 2; the first `undoLastCommand` gives the reversal log B; the second one
only reports the empty history. -/
def scenarioAsStated : Prop :=
  scenarioJoined.executeCalls = ["A", "B"] ∧ scenarioJoined.world = 2 ∧
    (CommandManager.undoLastCommand markerCommand scenarioJoined).undoCalls = ["B"] ∧
    CommandManager.undoLastCommand markerCommand
        (CommandManager.undoLastCommand markerCommand scenarioJoined)
      = { CommandManager.undoLastCommand markerCommand scenarioJoined with
          cout := (CommandManager.undoLastCommand markerCommand scenarioJoined).cout
            ++ ["История команд пуста"] }

/-! ## Definitions: the threads, statement by statement

The same program with every statement that runs outside a lock taken as a step of
its own, so that the consumer and the callers of `undoLastCommand` interleave as
the source lets them. An entry of `history_` is a `std::unique_ptr`, which may be
null: `std::move(history_.top())` (line 128) leaves a null pointer in the top
entry until `history_.pop()` (line 129) removes whatever entry is on top then. A
call of `execute` may leave by an exception: `throws cmd w` tells whether the call
on `cmd` in the world `w` does; the exception unwinds `processCommands` past line
118 and destroys `cmd`. Any number of calls of `undoLastCommand` may be in progress.
Where the source has undefined behaviour (`top` or `pop` on an empty stack, a call
through a null pointer) the step is not taken. -/

/-- Where the consumer thread stands inside `processCommands`, with its local `cmd`. -/
inductive Consumer (C : Type) where
  /-- At the top of the loop, before or inside `condition_.wait` (line 104). -/
  | waiting : Consumer C
  /-- Past the locked block with the head of the queue in `cmd` (before line 116). -/
  | holding (cmd : C) : Consumer C
  /-- After `cmd->execute()` has returned, before `history_.push` (line 118). -/
  | executed (cmd : C) : Consumer C
  /-- After the `return` of line 109. -/
  | returned : Consumer C
  /-- After `cmd->execute()` (line 117) has left by an exception: `processCommands` is
  left, `cmd` is destroyed. -/
  | thrown (cmd : C) : Consumer C
deriving DecidableEq, Repr

/-- Where a call of `undoLastCommand` in progress stands, with its local `cmd`. -/
inductive Undoer (C : Type) where
  /-- The test of line 123 found an entry; next is line 128. -/
  | tested : Undoer C
  /-- Line 128 has moved the top entry into `cmd`; next is line 129. -/
  | moved (cmd : Option C) : Undoer C
  /-- Line 129 has popped; next are lines 130-131. -/
  | popped (cmd : Option C) : Undoer C
deriving DecidableEq, Repr

/-- The members of `CommandManager` with the entries of `history_` as pointers
(`none` is the null `unique_ptr`), the consumer thread, the calls of
`undoLastCommand` in progress (the latest first), the outside world, the lines the
manager wrote to `std::cout`, and three logs: the calls of `execute` that have
returned, the commands pushed onto `history_`, the calls of `undo`. -/
structure Program (C W : Type) where
  history_ : List (Option C)
  commandQueue_ : List C
  shouldStop_ : Bool
  consumer : Consumer C
  undoers : List (Undoer C)
  world : W
  cout : List String
  executeCalls : List C
  pushCalls : List C
  undoCalls : List C
deriving DecidableEq, Repr

/-- What can happen next: a thread calls `addCommand` or `stop`, the consumer takes
a step, a thread enters `undoLastCommand`, or the call of `undoLastCommand` at place
`i` among those in progress runs its next statement. -/
inductive ProgramStep (C : Type) where
  | addCommand (cmd : C) : ProgramStep C
  | stop : ProgramStep C
  | consumer : ProgramStep C
  | undoLastCommand : ProgramStep C
  | undoNext (i : Nat) : ProgramStep C
deriving DecidableEq, Repr

namespace Program

variable {C W : Type}

/-- A freshly constructed manager, the consumer at the top of its loop, no call of
`undoLastCommand` in progress. -/
def fresh (w : W) : Program C W :=
  { history_ := [], commandQueue_ := [], shouldStop_ := false, consumer := Consumer.waiting,
    undoers := [], world := w, cout := [], executeCalls := [], pushCalls := [],
    undoCalls := [] }

/-- One step.
`addCommand` (lines 93-97) and `stop` (lines 134-138) run whole under `mutex_`.
The consumer (lines 99-120): the locked block of lines 102-114, which returns, takes
the head of the queue or cannot be passed; then lines 116-117, where `execute`
returns or throws; then the push of line 118.
`undoLastCommand` (lines 122-132): the test of line 123 with the report of lines
124-125; then line 128, which moves the top entry out and leaves it null; then line
129, which pops the entry on top; then lines 130-131. -/
def step (V : Command C W) (throws : C → W → Bool) :
    ProgramStep C → Program C W → Option (Program C W)
  | ProgramStep.addCommand cmd, s => some { s with commandQueue_ := s.commandQueue_ ++ [cmd] }
  | ProgramStep.stop, s => some { s with shouldStop_ := true }
  | ProgramStep.consumer, s =>
    match s.consumer with
    | Consumer.waiting =>
      if s.shouldStop_ || !s.commandQueue_.isEmpty then
        if s.shouldStop_ && s.commandQueue_.isEmpty then
          some { s with consumer := Consumer.returned }
        else
          match s.commandQueue_ with
          | cmd :: rest => some { s with commandQueue_ := rest, consumer := Consumer.holding cmd }
          | [] => none
      else
        none
    | Consumer.holding cmd =>
      if throws cmd s.world then
        some { s with
          cout := s.cout ++ ["Выполняется команда: " ++ V.getDescription cmd s.world]
          world := V.execute cmd s.world
          consumer := Consumer.thrown cmd }
      else
        some { s with
          cout := s.cout ++ ["Выполняется команда: " ++ V.getDescription cmd s.world]
          world := V.execute cmd s.world
          executeCalls := s.executeCalls ++ [cmd]
          consumer := Consumer.executed cmd }
    | Consumer.executed cmd =>
      some { s with
        history_ := some cmd :: s.history_
        pushCalls := s.pushCalls ++ [cmd]
        consumer := Consumer.waiting }
    | Consumer.returned => none
    | Consumer.thrown _ => none
  | ProgramStep.undoLastCommand, s =>
    if s.history_.isEmpty then
      some { s with cout := s.cout ++ ["История команд пуста"] }
    else
      some { s with undoers := Undoer.tested :: s.undoers }
  | ProgramStep.undoNext i, s =>
    match s.undoers[i]? with
    | some Undoer.tested =>
      match s.history_ with
      | top :: rest =>
        some { s with history_ := none :: rest, undoers := s.undoers.set i (Undoer.moved top) }
      | [] => none
    | some (Undoer.moved cmd) =>
      match s.history_ with
      | _ :: rest =>
        some { s with history_ := rest, undoers := s.undoers.set i (Undoer.popped cmd) }
      | [] => none
    | some (Undoer.popped (some cmd)) =>
      some { s with
        cout := s.cout ++ ["Отмена команды: " ++ V.getDescription cmd s.world]
        world := V.undo cmd s.world
        undoCalls := s.undoCalls ++ [cmd]
        undoers := s.undoers.eraseIdx i }
    | some (Undoer.popped none) => none
    | none => none

/-- The steps of a schedule, one after the other; `none` if one cannot be taken. -/
def run (V : Command C W) (throws : C → W → Bool) :
    List (ProgramStep C) → Program C W → Option (Program C W)
  | [], s => some s
  | a :: rest, s =>
    match step V throws a s with
    | some s' => run V throws rest s'
    | none => none

/-- A call of `undoLastCommand` run whole: its statements one after the other with no
step of another thread in between. -/
def undoLastCommand (V : Command C W) (throws : C → W → Bool) (s : Program C W) :
    Option (Program C W) :=
  match s.history_ with
  | [] => step V throws ProgramStep.undoLastCommand s
  | _ :: _ =>
    (((step V throws ProgramStep.undoLastCommand s).bind
      (step V throws (ProgramStep.undoNext 0))).bind
      (step V throws (ProgramStep.undoNext 0))).bind
      (step V throws (ProgramStep.undoNext 0))

/-- The command a step submits. -/
def submitted : ProgramStep C → List C
  | ProgramStep.addCommand cmd => [cmd]
  | _ => []

/-- The commands a schedule submits, in order. -/
def submissions (schedule : List (ProgramStep C)) : List C :=
  schedule.flatMap submitted

/-- The states the program can be in: starting fresh, steps are taken in any order,
`addCommand` each time with an object the manager has never been given (as
`std::unique_ptr` ownership has it). The index is the list of the commands
submitted so far. -/
inductive Reachable (V : Command C W) (throws : C → W → Bool) :
    List C → Program C W → Prop where
  | fresh (w : W) : Reachable V throws [] (fresh w)
  | step {sub : List C} {s s' : Program C W} (a : ProgramStep C) :
      Reachable V throws sub s → (∀ cmd ∈ submitted a, cmd ∉ sub) →
      step V throws a s = some s' → Reachable V throws (sub ++ submitted a) s'

/-- The command the consumer holds for `execute`: taken from the queue and not yet
executed, or the one whose `execute` has thrown. -/
def inFlight (s : Program C W) : List C :=
  match s.consumer with
  | Consumer.holding cmd => [cmd]
  | Consumer.thrown cmd => [cmd]
  | _ => []

/-- The command the consumer has executed and not yet pushed onto `history_`. -/
def toPush (s : Program C W) : List C :=
  match s.consumer with
  | Consumer.executed cmd => [cmd]
  | _ => []

/-- The command in the hands of the consumer thread (its local `cmd`), if any. -/
def inHand (s : Program C W) : List C :=
  match s.consumer with
  | Consumer.holding cmd => [cmd]
  | Consumer.executed cmd => [cmd]
  | _ => []

/-- The command a call of `undoLastCommand` in progress holds in its local `cmd`. -/
def undoerHolds : Undoer C → List C
  | Undoer.moved (some cmd) => [cmd]
  | Undoer.popped (some cmd) => [cmd]
  | _ => []

/-- The commands held by the calls of `undoLastCommand` in progress. -/
def beingUndone (s : Program C W) : List C :=
  s.undoers.flatMap undoerHolds

/-- No `execute` ever throws. -/
def neverThrows : C → W → Bool := fun _ _ => false

/-- The history invariant read at every state: a command has been pushed onto
`history_` exactly when its `execute` call is over, whether it returned or failed. -/
def PushedIffReturned (V : Command C W) : Prop :=
  ∀ (throws : C → W → Bool) (sub : List C) (s : Program C W), Reachable V throws sub s →
    ∀ c, c ∈ s.pushCalls ↔ (c ∈ s.executeCalls ∨ s.consumer = Consumer.thrown c)

/-- No loss, no duplication, read at every state: the queue, the hands of the
consumer, the history, and the commands undone or being undone hold together
exactly the submitted commands. -/
def NoLossNoDuplication (V : Command C W) (throws : C → W → Bool) : Prop :=
  ∀ (sub : List C) (s : Program C W), Reachable V throws sub s →
    sub.Perm (s.commandQueue_ ++ inHand s ++ s.history_.reduceOption
      ++ beingUndone s ++ s.undoCalls)

/-- The last clause of the undo claim read at every state: when `a` then `b` have been
executed (the calls of `execute` on them, and on nothing else, have returned) and
nothing is undone yet, a call of `undoLastCommand` run whole calls `undo` on `b`. -/
def UndoReversesLastExecuted (V : Command C W) (throws : C → W → Bool) : Prop :=
  ∀ (sub : List C) (s s' : Program C W) (a b : C), Reachable V throws sub s →
    s.executeCalls = [a, b] → s.undoCalls = [] → undoLastCommand V throws s = some s' →
    s'.undoCalls = [b]

end Program

/-- The state in which "A" has been submitted, dequeued and executed, and
`history_.push` (line 118) has not run yet. -/
def executedNotPushed : Program String Nat :=
  { history_ := [], commandQueue_ := [], shouldStop_ := false,
    consumer := Consumer.executed "A", undoers := [], world := 1,
    cout := ["Выполняется команда: A"], executeCalls := ["A"], pushCalls := [],
    undoCalls := [] }

/-- A schedule in which "A" and "B" are submitted and executed and "A" is pushed, but
the push of "B" (line 118) has not run yet. -/
def bothExecutedSchedule : List (ProgramStep String) :=
  [ProgramStep.addCommand "A", ProgramStep.addCommand "B",
   ProgramStep.consumer, ProgramStep.consumer, ProgramStep.consumer,
   ProgramStep.consumer, ProgramStep.consumer]

/-- The state `bothExecutedSchedule` leads to. -/
def bothExecuted : Program String Nat :=
  { history_ := [some "A"], commandQueue_ := [], shouldStop_ := false,
    consumer := Consumer.executed "B", undoers := [], world := 2,
    cout := ["Выполняется команда: A", "Выполняется команда: B"],
    executeCalls := ["A", "B"], pushCalls := ["A"], undoCalls := [] }

/-- A schedule in which "A" and "B" are submitted, executed and pushed. -/
def bothPushedSchedule : List (ProgramStep String) :=
  bothExecutedSchedule ++ [ProgramStep.consumer]

/-- The state `bothPushedSchedule` leads to. -/
def bothPushed : Program String Nat :=
  { history_ := [some "B", some "A"], commandQueue_ := [], shouldStop_ := false,
    consumer := Consumer.waiting, undoers := [], world := 2,
    cout := ["Выполняется команда: A", "Выполняется команда: B"],
    executeCalls := ["A", "B"], pushCalls := ["A", "B"], undoCalls := [] }

/-- The payload "A" fails: its `execute` throws; any other returns. -/
def throwsOnA : String → Nat → Bool := fun c _ => c == "A"

/-- A schedule in which "A" and "B" are submitted and the consumer takes "A" and
calls `execute` on it. -/
def thrownSchedule : List (ProgramStep String) :=
  [ProgramStep.addCommand "A", ProgramStep.addCommand "B",
   ProgramStep.consumer, ProgramStep.consumer]

/-- The state `thrownSchedule` leads to when "A" fails: the consumer has left
`processCommands`, "A" is not in the history, "B" is still queued. -/
def thrownState : Program String Nat :=
  { history_ := [], commandQueue_ := ["B"], shouldStop_ := false,
    consumer := Consumer.thrown "A", undoers := [], world := 1,
    cout := ["Выполняется команда: A"], executeCalls := [], pushCalls := [],
    undoCalls := [] }

/-- A schedule of two threads, as in `main`: "A" is submitted, executed and pushed;
"B" is submitted and executed; the caller enters `undoLastCommand` and moves "A"
out of the top entry (line 128); the consumer pushes "B" (line 118); the caller pops
(line 129) and calls `undo` on "A" (lines 130-131). -/
def lossSchedule : List (ProgramStep String) :=
  [ProgramStep.addCommand "A",
   ProgramStep.consumer, ProgramStep.consumer, ProgramStep.consumer,
   ProgramStep.addCommand "B",
   ProgramStep.consumer, ProgramStep.consumer,
   ProgramStep.undoLastCommand, ProgramStep.undoNext 0,
   ProgramStep.consumer,
   ProgramStep.undoNext 0, ProgramStep.undoNext 0]

/-- The state `lossSchedule` leads to: "B" is nowhere, the history holds one null
entry. -/
def lossState : Program String Nat :=
  { history_ := [none], commandQueue_ := [], shouldStop_ := false,
    consumer := Consumer.waiting, undoers := [], world := 2,
    cout := ["Выполняется команда: A", "Выполняется команда: B", "Отмена команды: A"],
    executeCalls := ["A", "B"], pushCalls := ["A", "B"], undoCalls := ["A"] }

/-! ## Definitions: the mutex

The same manager with `mutex_` made explicit: `std::lock_guard` and
`std::unique_lock` take the mutex where they are declared and give it back at the
end of their block; statements outside such a block run without it. There are two
threads, as in `main`: the consumer in `processCommands` and one calling thread. -/

/-- The threads: `consumer` runs `processCommands` (the `worker` of `main`), `caller`
calls `addCommand`, `undoLastCommand` and `stop` (the main thread of `main`). -/
inductive Thread where
  | consumer : Thread
  | caller : Thread
deriving DecidableEq, Repr

/-- Where the calling thread stands. -/
inductive Caller (C : Type) where
  /-- Outside any call. -/
  | idle : Caller C
  /-- In `addCommand`, after the `lock_guard` of line 94, before line 95. -/
  | adding (cmd : C) : Caller C
  /-- In `stop`, after the `lock_guard` of line 135, before line 136. -/
  | stopping : Caller C
  /-- In `undoLastCommand`, after the test of line 123 found an entry, before line 128. -/
  | undoing : Caller C
deriving DecidableEq, Repr

/-- The manager, the owner of `mutex_` if it is locked, and the calling thread. -/
structure Threaded (C W : Type) where
  manager : CommandManager C W
  mutex_ : Option Thread
  caller : Caller C
deriving DecidableEq, Repr

/-- What can happen next: the consumer takes a step, the calling thread enters one of
the three methods, or it goes on inside the method it is in. -/
inductive ThreadAction (C : Type) where
  | consumer : ThreadAction C
  | addCommand (cmd : C) : ThreadAction C
  | stop : ThreadAction C
  | undoLastCommand : ThreadAction C
  | proceed : ThreadAction C
deriving DecidableEq, Repr

namespace Threaded

variable {C W : Type}

/-- The thread that takes the action. -/
def thread : ThreadAction C → Thread
  | ThreadAction.consumer => Thread.consumer
  | _ => Thread.caller

/-- A fresh manager, `mutex_` free, the calling thread outside any call. -/
def fresh (w : W) : Threaded C W :=
  { manager := CommandManager.fresh w, mutex_ := none, caller := Caller.idle }

/-- One step of one thread; `none` when the thread cannot take it (the mutex it asks
for is held by the other thread, or the action is not at its place).
The consumer at the top of its loop locks `mutex_` (line 103), then runs the locked
block (lines 104-113) and unlocks at its end or at the `return`, or, the predicate
being false, unlocks in `wait`; lines 116-118 run whoever holds the mutex.
`addCommand` and `stop` lock, then do their line and unlock. `undoLastCommand` tests
`history_.empty()` (line 123) and then runs lines 128-131, locking nothing. -/
def step (V : Command C W) : ThreadAction C → Threaded C W → Option (Threaded C W)
  | ThreadAction.consumer, s =>
    match s.manager.worker with
    | Worker.waiting =>
      match s.mutex_ with
      | none => some { s with mutex_ := some Thread.consumer }
      | some Thread.consumer =>
        match CommandManager.workerStep V s.manager with
        | some m => some { s with manager := m, mutex_ := none }
        | none => some { s with mutex_ := none }
      | some Thread.caller => none
    | _ => (CommandManager.workerStep V s.manager).map fun m => { s with manager := m }
  | ThreadAction.addCommand cmd, s =>
    match s.caller, s.mutex_ with
    | Caller.idle, none => some { s with mutex_ := some Thread.caller, caller := Caller.adding cmd }
    | _, _ => none
  | ThreadAction.stop, s =>
    match s.caller, s.mutex_ with
    | Caller.idle, none => some { s with mutex_ := some Thread.caller, caller := Caller.stopping }
    | _, _ => none
  | ThreadAction.undoLastCommand, s =>
    match s.caller with
    | Caller.idle =>
      if s.manager.history_.isEmpty then
        some { s with manager := CommandManager.undoLastCommand V s.manager }
      else
        some { s with caller := Caller.undoing }
    | _ => none
  | ThreadAction.proceed, s =>
    match s.caller with
    | Caller.adding cmd =>
      some { manager := CommandManager.addCommand cmd s.manager, mutex_ := none,
             caller := Caller.idle }
    | Caller.stopping =>
      some { manager := CommandManager.stop s.manager, mutex_ := none, caller := Caller.idle }
    | Caller.undoing =>
      some { s with manager := CommandManager.undoLastCommand V s.manager, caller := Caller.idle }
    | Caller.idle => none

/-- The steps of a schedule, one after the other; `none` if one cannot be taken. -/
def run (V : Command C W) : List (ThreadAction C) → Threaded C W → Option (Threaded C W)
  | [], s => some s
  | a :: rest, s =>
    match step V a s with
    | some s' => run V rest s'
    | none => none

/-- The queue is guarded: in every state a fresh manager comes to, a step that changes
`commandQueue_` is taken by a thread that holds `mutex_`. -/
def QueueGuarded (V : Command C W) (w : W) : Prop :=
  ∀ (schedule : List (ThreadAction C)) (s s' : Threaded C W) (a : ThreadAction C),
    run V schedule (fresh w) = some s → step V a s = some s' →
    s'.manager.commandQueue_ ≠ s.manager.commandQueue_ → s.mutex_ = some (thread a)

/-- The calling thread is inside `addCommand` or `stop` only with `mutex_` in hand. -/
def CallerLocked (s : Threaded C W) : Prop :=
  (∀ cmd, s.caller = Caller.adding cmd → s.mutex_ = some Thread.caller) ∧
    (s.caller = Caller.stopping → s.mutex_ = some Thread.caller)

/-- The history is guarded: in every state a fresh manager comes to, a step that
changes `history_` is taken by a thread that holds `mutex_`. -/
def HistoryGuarded (V : Command C W) (w : W) : Prop :=
  ∀ (schedule : List (ThreadAction C)) (s s' : Threaded C W) (a : ThreadAction C),
    run V schedule (fresh w) = some s → step V a s = some s' →
    s'.manager.history_ ≠ s.manager.history_ → s.mutex_ = some (thread a)

end Threaded

/-- A schedule of `main`'s two threads: "A" is submitted, dequeued, executed and
pushed; "B" is submitted, dequeued and executed; the calling thread enters
`undoLastCommand` and passes the test of line 123. -/
def raceSchedule : List (ThreadAction String) :=
  [ThreadAction.addCommand "A", ThreadAction.proceed,
   ThreadAction.consumer, ThreadAction.consumer, ThreadAction.consumer, ThreadAction.consumer,
   ThreadAction.addCommand "B", ThreadAction.proceed,
   ThreadAction.consumer, ThreadAction.consumer, ThreadAction.consumer,
   ThreadAction.undoLastCommand]

/-- The state `raceSchedule` leads to: the consumer is about to push "B" (line 118),
the calling thread is about to pop "A" (lines 128-129), `mutex_` is free. -/
def raceState : Threaded String Nat :=
  { manager :=
      { history_ := ["A"], commandQueue_ := [], shouldStop_ := false,
        worker := Worker.executed "B", world := 2,
        cout := ["Выполняется команда: A", "Выполняется команда: B"],
        executeCalls := ["A", "B"], undoCalls := [] },
    mutex_ := none, caller := Caller.undoing }

/-! ## Definitions: the sorting strategies

`std::vector<int>` is a list of integers; only comparisons and swaps are made on the
elements. `size_t` is the 64-bit unsigned type: sums and differences wrap modulo
`2 ^ 64`. The line each `sort` writes to `std::cout` is left out. -/

/-- The number of values of `size_t`. -/
def SIZE_MODULUS : Nat := 2 ^ 64

/-- Subtraction on `size_t`, wrapping below zero. -/
def sizeSub (a b : Nat) : Nat := (a % SIZE_MODULUS + SIZE_MODULUS - b % SIZE_MODULUS) % SIZE_MODULUS

/-- Addition on `size_t`, wrapping at `2 ^ 64`. -/
def sizeAdd (a b : Nat) : Nat := (a + b) % SIZE_MODULUS

/-- What a run of `BubbleSortStrategy::sort` comes to: the vector it leaves, a read
of `data[j]` or `data[j + 1]` outside the vector (undefined behaviour in the source),
or the end of the fuel given to the model. -/
inductive SortResult where
  | done (data : List Int) : SortResult
  | outOfBounds : SortResult
  | outOfFuel : SortResult
deriving DecidableEq, Repr

namespace BubbleSortStrategy

/-- The inner loop (lines 43-47) from index `j` on, in the pass `i` of the outer loop:
`for (; j < data.size() - i - 1; ++j) if (data[j] > data[j + 1]) swap`. -/
def sortInner (i : Nat) : Nat → Nat → List Int → SortResult
  | 0, _, _ => SortResult.outOfFuel
  | fuel + 1, j, data =>
    if j < sizeSub (sizeSub data.length i) 1 then
      match data[j]?, data[sizeAdd j 1]? with
      | some a, some b =>
        if a > b then
          sortInner i fuel (sizeAdd j 1) ((data.set j b).set (sizeAdd j 1) a)
        else
          sortInner i fuel (sizeAdd j 1) data
      | _, _ => SortResult.outOfBounds
    else
      SortResult.done data

/-- The outer loop (lines 42-48) from pass `i` on:
`for (; i < data.size(); ++i) { inner loop from j = 0 }`. -/
def sortOuter : Nat → Nat → List Int → SortResult
  | 0, _, _ => SortResult.outOfFuel
  | fuel + 1, i, data =>
    if i < data.length then
      match sortInner i fuel 0 data with
      | SortResult.done data' => sortOuter fuel (sizeAdd i 1) data'
      | r => r
    else
      SortResult.done data

/-- `BubbleSortStrategy::sort` (lines 39-49): the outer loop from `i = 0`. -/
def sort (fuel : Nat) (data : List Int) : SortResult :=
  sortOuter fuel 0 data

end BubbleSortStrategy

namespace QuickSortStrategy

/-- `QuickSortStrategy::sort` (lines 22-25) is `std::sort(data.begin(), data.end())`
of the C++ standard library, taken by its contract: it leaves the elements in
ascending order. -/
def sort (data : List Int) : List Int :=
  data.insertionSort (· ≤ ·)

end QuickSortStrategy

/-! ## Theorems: the command manager -/

namespace CommandManager

variable {C W : Type}

/-- C8. `stop` is idempotent: a second call changes nothing, the flag is set after
the first, and queue and history are those of the state it was called in. -/
theorem stop_idempotent (s : CommandManager C W) :
    stop (stop s) = stop s ∧ (stop s).shouldStop_ = true ∧
      (stop s).commandQueue_ = s.commandQueue_ ∧ (stop s).history_ = s.history_ := by
  refine ⟨rfl, rfl, rfl, rfl⟩

/-! ### The consumer thread running alone -/

theorem foldl_addCommand (cs : List C) (s : CommandManager C W) :
    cs.foldl (fun s c => addCommand c s) s
      = { s with commandQueue_ := s.commandQueue_ ++ cs } := by
  induction cs generalizing s with
  | nil => simp
  | cons c t ih =>
    rw [List.foldl_cons, ih]
    simp [addCommand]

theorem foldl_runCommand_fields (V : Command C W) (cs : List C) (s : CommandManager C W) :
    (cs.foldl (runCommand V) s).executeCalls = s.executeCalls ++ cs ∧
    (cs.foldl (runCommand V) s).history_ = cs.reverse ++ s.history_ ∧
    (cs.foldl (runCommand V) s).commandQueue_ = s.commandQueue_ ∧
    (cs.foldl (runCommand V) s).shouldStop_ = s.shouldStop_ ∧
    (cs.foldl (runCommand V) s).worker = s.worker ∧
    (cs.foldl (runCommand V) s).undoCalls = s.undoCalls ∧
    (cs.foldl (runCommand V) s).world = cs.foldl (fun w c => V.execute c w) s.world := by
  induction cs generalizing s with
  | nil => simp
  | cons c t ih =>
    obtain ⟨h1, h2, h3, h4, h5, h6, h7⟩ := ih (runCommand V s c)
    simp only [List.foldl_cons, h1, h2, h3, h4, h5, h6, h7]
    simp [runCommand]

theorem processCommands_of_none (V : Command C W) (fuel : Nat) (s : CommandManager C W)
    (h : workerStep V s = none) : processCommands V fuel s = s := by
  cases fuel with
  | zero => rfl
  | succ n => simp [processCommands, h]

/-- Three steps of the consumer take the head of the queue through lines 112-118. -/
theorem processCommands_cons (V : Command C W) (fuel : Nat) (s : CommandManager C W)
    (c : C) (t : List C) (hw : s.worker = Worker.waiting) (hq : s.commandQueue_ = c :: t) :
    processCommands V (fuel + 3) s
      = processCommands V fuel { runCommand V s c with commandQueue_ := t } := by
  obtain ⟨h, q, st, w, wd, co, ex, un⟩ := s
  simp only at hw hq
  subst hw hq
  simp [processCommands, workerStep, runCommand]

/-- The consumer alone drains the whole queue, in order, in three steps a command. -/
theorem processCommands_drain (V : Command C W) (cs : List C) (fuel : Nat)
    (s : CommandManager C W) (hw : s.worker = Worker.waiting) (hq : s.commandQueue_ = cs) :
    processCommands V (3 * cs.length + fuel) s
      = processCommands V fuel (cs.foldl (runCommand V) { s with commandQueue_ := [] }) := by
  induction cs generalizing s with
  | nil =>
    have : ({ s with commandQueue_ := [] } : CommandManager C W) = s := by
      cases s; simp_all
    simp [this]
  | cons c t ih =>
    have e : 3 * (c :: t).length + fuel = (3 * t.length + fuel) + 3 := by
      simp only [List.length_cons]; ring
    rw [e, processCommands_cons V _ s c t hw hq, ih _ (by simp [runCommand, hw]) rfl]
    rfl

/-- The state the consumer alone comes to rest in, from a state where it waits. -/
theorem processCommands_rest (V : Command C W) (fuel : Nat) (s : CommandManager C W)
    (hw : s.worker = Worker.waiting) (hf : 3 * s.commandQueue_.length + 1 ≤ fuel) :
    processCommands V fuel s
      = { s.commandQueue_.foldl (runCommand V) { s with commandQueue_ := [] } with
          worker := if s.shouldStop_ then Worker.returned else Worker.waiting } := by
  obtain ⟨k, rfl⟩ : ∃ k, fuel = 3 * s.commandQueue_.length + (k + 1) :=
    ⟨fuel - (3 * s.commandQueue_.length + 1), by omega⟩
  rw [processCommands_drain V _ _ s hw rfl]
  obtain ⟨h1, h2, h3, h4, h5, h6, h7⟩ :=
    foldl_runCommand_fields V s.commandQueue_ { s with commandQueue_ := [] }
  generalize s.commandQueue_.foldl (runCommand V) { s with commandQueue_ := [] } = r at *
  obtain ⟨h, q, st, w, wd, co, ex, un⟩ := r
  simp only at h3 h4 h5
  subst h3 h4 h5
  rw [hw]
  cases hs : s.shouldStop_
  · simp [processCommands, workerStep, hs]
  · simp only [processCommands, workerStep, hs, Bool.true_or, List.isEmpty_nil, Bool.and_self,
      if_true]
    exact processCommands_of_none V k _ rfl

/-! ### Invariants of the reachable states -/

/-- What a step of the consumer is, case by case. -/
theorem workerStep_cases (V : Command C W) (s s' : CommandManager C W)
    (h : workerStep V s = some s') :
    (s.worker = Worker.waiting ∧ s.shouldStop_ = true ∧ s.commandQueue_ = [] ∧
        s' = { s with worker := Worker.returned }) ∨
    (∃ cmd rest, s.worker = Worker.waiting ∧ s.commandQueue_ = cmd :: rest ∧
        s' = { s with commandQueue_ := rest, worker := Worker.holding cmd }) ∨
    (∃ cmd, s.worker = Worker.holding cmd ∧
        s' = { s with
          cout := s.cout ++ ["Выполняется команда: " ++ V.getDescription cmd s.world]
          world := V.execute cmd s.world
          executeCalls := s.executeCalls ++ [cmd]
          worker := Worker.executed cmd }) ∨
    (∃ cmd, s.worker = Worker.executed cmd ∧
        s' = { s with history_ := cmd :: s.history_, worker := Worker.waiting }) := by
  obtain ⟨hi, q, st, w, wd, co, ex, un⟩ := s
  cases w with
  | waiting =>
    cases q with
    | nil =>
      cases st <;> simp [workerStep] at h
      exact Or.inl ⟨rfl, rfl, rfl, h.symm⟩
    | cons c t =>
      simp [workerStep] at h
      exact Or.inr (Or.inl ⟨c, t, rfl, rfl, h.symm⟩)
  | holding c =>
    simp [workerStep] at h
    exact Or.inr (Or.inr (Or.inl ⟨c, rfl, h.symm⟩))
  | executed c =>
    simp [workerStep] at h
    exact Or.inr (Or.inr (Or.inr ⟨c, rfl, h.symm⟩))
  | returned => simp [workerStep] at h

end CommandManager

/-! ### Invariants of the statement-level system -/

namespace Program

variable {C W : Type}

theorem reduceOption_tail_sublist (top : Option C) (rest : List (Option C)) :
    rest.reduceOption.Sublist (top :: rest).reduceOption := by
  cases top with
  | none => rw [List.reduceOption_cons_of_none]
  | some c =>
    rw [List.reduceOption_cons_of_some]
    exact List.sublist_cons_self c _

/-- The invariant of the statement-level system: the submitted commands are distinct;
they are, in order, those whose `execute` has returned, the one held for `execute`
(or thrown on) and the queued ones; the executed ones are, in order, the pushed ones
and the one about to be pushed; the commands in the history, bottom to top, are a
subsequence of the pushed ones. -/
theorem reachable_invariant (V : Command C W) (throws : C → W → Bool) (sub : List C)
    (s : Program C W) (h : Reachable V throws sub s) :
    sub.Nodup ∧ sub = s.executeCalls ++ inFlight s ++ s.commandQueue_ ∧
      s.executeCalls = s.pushCalls ++ toPush s ∧
      s.history_.reduceOption.reverse.Sublist s.pushCalls := by
  induction h with
  | fresh w => exact ⟨List.nodup_nil, rfl, rfl, List.Sublist.refl _⟩
  | @step sub s s' a _ hfresh hstep ih =>
    obtain ⟨hnd, hsub, hex, hsl⟩ := ih
    obtain ⟨hi, q, st, co, un, wd, out, ex, pu, ud⟩ := s
    simp only at hsub hex hsl
    cases a with
    | addCommand cmd =>
      simp only [step, Option.some.injEq] at hstep
      subst hstep
      refine ⟨?_, ?_, hex, hsl⟩
      · exact List.Nodup.append hnd (List.nodup_singleton cmd)
          (by simpa [submitted] using hfresh)
      · show sub ++ [cmd] = ex ++ inFlight _ ++ (q ++ [cmd])
        rw [← List.append_assoc]
        exact congrArg (· ++ [cmd]) hsub
    | stop =>
      simp only [step, Option.some.injEq] at hstep
      subst hstep
      exact ⟨by simpa [submitted] using hnd, by simpa [submitted] using hsub, hex, hsl⟩
    | consumer =>
      have e : sub ++ submitted (ProgramStep.consumer : ProgramStep C) = sub := by
        simp [submitted]
      rw [e]
      cases co with
      | waiting =>
        cases q with
        | nil =>
          cases st <;> simp [step] at hstep
          subst hstep
          exact ⟨hnd, by simpa [inFlight] using hsub, by simpa [toPush] using hex, hsl⟩
        | cons c t =>
          simp [step] at hstep
          subst hstep
          exact ⟨hnd, by simpa [inFlight] using hsub, by simpa [toPush] using hex, hsl⟩
      | holding c =>
        simp only [step] at hstep
        split at hstep
        · simp only [Option.some.injEq] at hstep
          subst hstep
          exact ⟨hnd, by simpa [inFlight] using hsub, by simpa [toPush] using hex, hsl⟩
        · simp only [Option.some.injEq] at hstep
          subst hstep
          refine ⟨hnd, by simpa [inFlight] using hsub, ?_, hsl⟩
          have : ex = pu := by simpa [toPush] using hex
          simp [toPush, this]
      | executed c =>
        simp only [step, Option.some.injEq] at hstep
        subst hstep
        have hex' : ex = pu ++ [c] := by simpa [toPush] using hex
        refine ⟨hnd, by simpa [inFlight] using hsub, by simpa [toPush] using hex', ?_⟩
        show (some c :: hi).reduceOption.reverse.Sublist (pu ++ [c])
        rw [List.reduceOption_cons_of_some, List.reverse_cons]
        exact List.Sublist.append hsl (List.Sublist.refl _)
      | returned => simp [step] at hstep
      | thrown c => simp [step] at hstep
    | undoLastCommand =>
      have e : sub ++ submitted (ProgramStep.undoLastCommand : ProgramStep C) = sub := by
        simp [submitted]
      rw [e]
      simp only [step] at hstep
      split at hstep <;>
      · simp only [Option.some.injEq] at hstep
        subst hstep
        exact ⟨hnd, hsub, hex, hsl⟩
    | undoNext i =>
      have e : sub ++ submitted (ProgramStep.undoNext i : ProgramStep C) = sub := by
        simp [submitted]
      rw [e]
      simp only [step] at hstep
      split at hstep
      · split at hstep
        · rename_i top rest _
          simp only [Option.some.injEq] at hstep
          subst hstep
          refine ⟨hnd, hsub, hex, ?_⟩
          show (none :: rest).reduceOption.reverse.Sublist pu
          rw [List.reduceOption_cons_of_none]
          exact ((reduceOption_tail_sublist top rest).reverse).trans hsl
        · cases hstep
      · split at hstep
        · rename_i top rest _
          simp only [Option.some.injEq] at hstep
          subst hstep
          refine ⟨hnd, hsub, hex, ?_⟩
          exact ((reduceOption_tail_sublist top rest).reverse).trans hsl
        · cases hstep
      · simp only [Option.some.injEq] at hstep
        subst hstep
        exact ⟨hnd, hsub, hex, hsl⟩
      · cases hstep
      · cases hstep

/-- A schedule that submits distinct commands, none submitted before, stays within
the reachable states. -/
theorem reachable_run (V : Command C W) (throws : C → W → Bool)
    (schedule : List (ProgramStep C)) :
    ∀ (sub : List C) (s s' : Program C W), Reachable V throws sub s →
      (sub ++ submissions schedule).Nodup → run V throws schedule s = some s' →
      Reachable V throws (sub ++ submissions schedule) s' := by
  induction schedule with
  | nil =>
    intro sub s s' hr _ hrun
    simp only [run, Option.some.injEq] at hrun
    subst hrun
    simpa [submissions] using hr
  | cons a rest ih =>
    intro sub s s' hr hnd hrun
    have hsubs : submissions (a :: rest) = submitted a ++ submissions rest := by
      simp [submissions]
    rw [hsubs, ← List.append_assoc] at hnd ⊢
    simp only [run] at hrun
    cases hs : step V throws a s with
    | none => simp [hs] at hrun
    | some s1 =>
      simp only [hs] at hrun
      refine ih (sub ++ submitted a) s1 s' (Reachable.step a hr ?_ hs) hnd hrun
      intro cmd hcmd hmem
      have h1 := (List.nodup_append.mp hnd).1
      exact (List.nodup_append.mp h1).2.2 hmem hcmd

/-- The state a schedule leads a fresh manager to is reachable. -/
theorem reachable_of_run (V : Command C W) (throws : C → W → Bool)
    (schedule : List (ProgramStep C)) (w : W) (s : Program C W)
    (hnd : (submissions schedule).Nodup) (hrun : run V throws schedule (fresh w) = some s) :
    Reachable V throws (submissions schedule) s := by
  have := reachable_run V throws schedule [] (fresh w) s (Reachable.fresh w)
    (by simpa using hnd) hrun
  simpa using this

end Program

namespace CommandManager

variable {C W : Type}

/-! ### The claims on the dispatcher -/

/-- C1. FIFO order. On a manager whose queue is empty and whose consumer waits, after
`addCommand` of `cs` in that order, the consumer running alone comes to rest (it
cannot step, the queue is empty) having called `execute` on exactly `cs`, in that
order, after what it had executed before, for any `cs` (also the empty one) and any
fuel of at least three steps a command plus one. Every step of the consumer calls
`execute` on at most one command, the one it holds. And in whatever interleaving
of the statements of the threads, with `execute` calls that return or throw, the
submitted commands are, in order, those whose `execute` has returned, the one held
for `execute` and the queued ones. -/
theorem fifo_order (V : Command C W) (s0 : CommandManager C W) (cs : List C) (fuel : Nat)
    (hq : s0.commandQueue_ = []) (hw : s0.worker = Worker.waiting)
    (hf : 3 * cs.length + 1 ≤ fuel) :
    (processCommands V fuel (cs.foldl (fun s c => addCommand c s) s0)).executeCalls
        = s0.executeCalls ++ cs ∧
      (processCommands V fuel (cs.foldl (fun s c => addCommand c s) s0)).commandQueue_ = [] ∧
      workerStep V (processCommands V fuel (cs.foldl (fun s c => addCommand c s) s0)) = none ∧
      (∀ t t' : CommandManager C W, workerStep V t = some t' →
        t'.executeCalls = t.executeCalls ∨
          ∃ cmd, t.worker = Worker.holding cmd ∧ t'.executeCalls = t.executeCalls ++ [cmd]) ∧
      (∀ (throws : C → W → Bool) (sub : List C) (t : Program C W),
        Program.Reachable V throws sub t →
        sub = t.executeCalls ++ Program.inFlight t ++ t.commandQueue_) := by
  have hlen : 3 * (cs.foldl (fun s c => addCommand c s) s0).commandQueue_.length + 1 ≤ fuel := by
    rw [foldl_addCommand]; simpa [hq] using hf
  have hw' : (cs.foldl (fun s c => addCommand c s) s0).worker = Worker.waiting := by
    rw [foldl_addCommand]; exact hw
  rw [processCommands_rest V fuel _ hw' hlen]
  obtain ⟨h1, h2, h3, h4, h5, h6, h7⟩ :=
    foldl_runCommand_fields V (cs.foldl (fun s c => addCommand c s) s0).commandQueue_
      { cs.foldl (fun s c => addCommand c s) s0 with commandQueue_ := [] }
  refine ⟨?_, ?_, ?_, ?_, ?_⟩
  · show (List.foldl (runCommand V) _ _).executeCalls = _
    rw [h1, foldl_addCommand]; simp [hq]
  · exact h3
  · generalize List.foldl (runCommand V) _ _ = r at h3 h4 h5
    obtain ⟨h, q, st, w, wd, co, ex, un⟩ := r
    simp only at h3 h4 h5
    subst h3
    cases hs : (cs.foldl (fun s c => addCommand c s) s0).shouldStop_
    · have : st = false := by rw [h4]; exact hs
      subst this
      simp [workerStep]
    · simp [workerStep]
  · intro t t' ht
    rcases workerStep_cases V t t' ht with ⟨_, _, _, rfl⟩ | ⟨c, r, _, _, rfl⟩ |
      ⟨c, hc, rfl⟩ | ⟨c, _, rfl⟩
    · exact Or.inl rfl
    · exact Or.inl rfl
    · exact Or.inr ⟨c, hc, rfl⟩
    · exact Or.inl rfl
  · intro throws sub t ht
    exact (Program.reachable_invariant V throws sub t ht).2.1

/-- C1, at three marker commands on a fresh manager. -/
theorem fifo_order_witness :
    (processCommands markerCommand 10
        (["A", "B", "C"].foldl (fun s c => addCommand c s) (fresh 0))).executeCalls
      = ["A", "B", "C"] :=
  (fifo_order markerCommand (fresh 0) ["A", "B", "C"] 10 rfl rfl (by decide)).1

/-- C2. Drain-on-stop. When `cs` are submitted and `stop` is called while the
consumer waits at the top of its loop (it has dequeued none of them), the consumer
running alone executes what was queued and all of `cs`, in order, and returns, with
the stop flag set and the queue empty; and whenever a step of the consumer is the
`return` of line 109, the stop flag is set and the queue is empty, before and after. -/
theorem drain_on_stop (V : Command C W) (s0 : CommandManager C W) (cs : List C) (fuel : Nat)
    (hw : s0.worker = Worker.waiting)
    (hf : 3 * (s0.commandQueue_.length + cs.length) + 1 ≤ fuel) :
    (processCommands V fuel (stop (cs.foldl (fun s c => addCommand c s) s0))).worker
        = Worker.returned ∧
      (processCommands V fuel (stop (cs.foldl (fun s c => addCommand c s) s0))).executeCalls
        = s0.executeCalls ++ (s0.commandQueue_ ++ cs) ∧
      (processCommands V fuel (stop (cs.foldl (fun s c => addCommand c s) s0))).commandQueue_
        = [] ∧
      (processCommands V fuel (stop (cs.foldl (fun s c => addCommand c s) s0))).shouldStop_
        = true ∧
      (∀ t t' : CommandManager C W, workerStep V t = some t' →
        t'.worker = Worker.returned →
          t.shouldStop_ = true ∧ t.commandQueue_ = [] ∧
            t'.shouldStop_ = true ∧ t'.commandQueue_ = []) := by
  have hs : stop (cs.foldl (fun s c => addCommand c s) s0)
      = { s0 with commandQueue_ := s0.commandQueue_ ++ cs, shouldStop_ := true } := by
    rw [foldl_addCommand]; rfl
  have key := processCommands_rest V fuel
    { s0 with commandQueue_ := s0.commandQueue_ ++ cs, shouldStop_ := true } hw
    (by simpa using hf)
  rw [hs, key]
  obtain ⟨h1, h2, h3, h4, h5, h6, h7⟩ :=
    foldl_runCommand_fields V (s0.commandQueue_ ++ cs)
      { s0 with commandQueue_ := [], shouldStop_ := true }
  refine ⟨rfl, h1, h3, h4, ?_⟩
  intro t t' ht hret
  rcases workerStep_cases V t t' ht with ⟨_, hst, hq, rfl⟩ | ⟨c, r, _, _, rfl⟩ |
    ⟨c, hc, rfl⟩ | ⟨c, _, rfl⟩
  · exact ⟨hst, hq, hst, hq⟩
  · cases hret
  · cases hret
  · cases hret

/-- C2, at two marker commands on a fresh manager. -/
theorem drain_on_stop_witness :
    (processCommands markerCommand 7
        (stop (["A", "B"].foldl (fun s c => addCommand c s) (fresh 0)))).worker
      = Worker.returned :=
  (drain_on_stop markerCommand (fresh 0) ["A", "B"] 7 rfl (by decide)).1

/-- C4. Empty-history safety. With an empty history `undoLastCommand` writes the
line that reports it and does nothing else: no `undo` call, and queue, history,
stop flag, consumer and world are unchanged. -/
theorem undo_empty_history (V : Command C W) (s : CommandManager C W)
    (h : s.history_ = []) :
    undoLastCommand V s = { s with cout := s.cout ++ ["История команд пуста"] } ∧
      (undoLastCommand V s).undoCalls = s.undoCalls ∧
      (undoLastCommand V s).commandQueue_ = s.commandQueue_ ∧
      (undoLastCommand V s).history_ = s.history_ ∧
      (undoLastCommand V s).shouldStop_ = s.shouldStop_ ∧
      (undoLastCommand V s).world = s.world := by
  obtain ⟨hi, q, st, w, wd, co, ex, un⟩ := s
  simp only at h
  subst h
  exact ⟨rfl, rfl, rfl, rfl, rfl, rfl⟩

/-- C4, on a fresh manager. -/
theorem undo_empty_history_witness :
    undoLastCommand markerCommand (fresh 0)
      = { (fresh 0 : CommandManager String Nat) with cout := ["История команд пуста"] } :=
  (undo_empty_history markerCommand (fresh 0) rfl).1

end CommandManager

/-! ### The claims on the statement-level system -/

namespace Program

variable {C W : Type}

/-- C3, as stated, fails: when "A" then "B" have been submitted and both executed but
"B" is not yet pushed (line 118 has not run for it), the history holds "A" only and
`undoLastCommand` calls `undo` on "A", not on "B". -/
theorem undo_reverses_last_executed_fails :
    ¬ UndoReversesLastExecuted markerCommand neverThrows := by
  intro hclaim
  have hrun : run markerCommand neverThrows bothExecutedSchedule (fresh 0)
      = some bothExecuted := by decide
  have hr : Reachable markerCommand neverThrows ["A", "B"] bothExecuted :=
    reachable_of_run markerCommand neverThrows bothExecutedSchedule 0 _ (by decide) hrun
  have hu : undoLastCommand markerCommand neverThrows bothExecuted
      = some { bothExecuted with
          history_ := []
          cout := bothExecuted.cout ++ ["Отмена команды: A"]
          undoCalls := ["A"] } := by decide
  have := hclaim ["A", "B"] bothExecuted _ "A" "B" hr rfl rfl hu
  revert this
  decide

/-- C3, amended. In a reachable state with the command `cmd` on top of the history, a
call of `undoLastCommand` run whole (no push of the consumer between its lines 128
and 129) calls `undo` on `cmd` and on nothing else, pops that one entry and leaves
the rest of the history, the queue, the stop flag, the consumer and the logs of
`execute` and push as they are. `cmd` is the entry of the history whose `execute`
returned last: the execution log has `cmd` exactly once, and every other command in
the history, bottom to top, lies in the part of the log before it. And when A then B
are submitted to a fresh manager and the consumer has executed and pushed both,
`undoLastCommand` calls `undo` on B and leaves A in the history. -/
theorem undo_targets_latest_completion (V : Command C W) (throws : C → W → Bool)
    (sub : List C) (s : Program C W) (cmd : C) (rest : List (Option C))
    (hr : Reachable V throws sub s) (hh : s.history_ = some cmd :: rest) :
    undoLastCommand V throws s = some { s with
        history_ := rest
        cout := s.cout ++ ["Отмена команды: " ++ V.getDescription cmd s.world]
        world := V.undo cmd s.world
        undoCalls := s.undoCalls ++ [cmd] } ∧
      (∃ earlier later, s.executeCalls = earlier ++ cmd :: later ∧
        rest.reduceOption.reverse.Sublist earlier ∧ cmd ∉ earlier ∧ cmd ∉ later) ∧
      (∀ (w : W) (a b : C),
        ((run V neverThrows
            [ProgramStep.addCommand a, ProgramStep.addCommand b,
             ProgramStep.consumer, ProgramStep.consumer, ProgramStep.consumer,
             ProgramStep.consumer, ProgramStep.consumer, ProgramStep.consumer]
            (fresh w)).bind (undoLastCommand V neverThrows)).map
          (fun t => (t.executeCalls, t.pushCalls, t.history_, t.undoCalls))
        = some ([a, b], [a, b], [some a], [b])) := by
  refine ⟨?_, ?_, ?_⟩
  · obtain ⟨hi, q, st, co, un, wd, out, ex, pu, ud⟩ := s
    simp only at hh
    subst hh
    simp [undoLastCommand, step]
  · obtain ⟨hnd, hsub, hex, hsl⟩ := reachable_invariant V throws sub s hr
    rw [hh, List.reduceOption_cons_of_some, List.reverse_cons, List.append_sublist_iff] at hsl
    obtain ⟨r1, r2, hp, h1, h2⟩ := hsl
    obtain ⟨a, b, hab⟩ := List.append_of_mem (List.singleton_sublist.mp h2)
    have hexn : s.executeCalls.Nodup := by
      rw [hsub, List.append_assoc] at hnd
      exact (List.nodup_append.mp hnd).1
    have hE : s.executeCalls = (r1 ++ a) ++ cmd :: (b ++ toPush s) := by
      rw [hex, hp, hab]; simp
    refine ⟨r1 ++ a, b ++ toPush s, hE, ?_, ?_, ?_⟩
    · exact h1.trans (List.sublist_append_left r1 a)
    · rw [hE] at hexn
      intro hm
      exact (List.nodup_append.mp hexn).2.2 hm (List.mem_cons_self _ _)
    · rw [hE] at hexn
      exact (List.nodup_cons.mp (List.nodup_append.mp hexn).2.1).1
  · intro w a b
    simp [run, step, undoLastCommand, neverThrows, fresh]

/-- C3 amended, at the state where "A" then "B" were submitted, executed and pushed. -/
theorem undo_targets_latest_completion_witness :
    Reachable markerCommand neverThrows ["A", "B"] bothPushed ∧
      bothPushed.history_ = [some "B", some "A"] ∧
      undoLastCommand markerCommand neverThrows bothPushed = some { bothPushed with
        history_ := [some "A"]
        cout := bothPushed.cout ++ ["Отмена команды: B"]
        undoCalls := ["B"] } :=
  have hr : Reachable markerCommand neverThrows ["A", "B"] bothPushed :=
    reachable_of_run markerCommand neverThrows bothPushedSchedule 0 _ (by decide) (by decide)
  ⟨hr, rfl,
    (undo_targets_latest_completion markerCommand neverThrows _ _ "B" [some "A"] hr rfl).1⟩

/-- C6, on the code. In `lossSchedule` the consumer pushes "B" between line 128 and
line 129 of a call of `undoLastCommand`: the call has moved "A" out of the top
entry, pops the entry of "B" and calls `undo` on "A". In the state reached, "B" was
submitted, executed and pushed, and is neither queued, nor in the hands of the
consumer, nor in the history, nor undone or being undone: it is lost, and the
history holds a null entry. -/
theorem command_lost_in_race :
    run markerCommand neverThrows lossSchedule (fresh 0) = some lossState ∧
      Reachable markerCommand neverThrows ["A", "B"] lossState ∧
      "B" ∈ lossState.pushCalls ∧
      "B" ∉ lossState.commandQueue_ ++ inHand lossState ++ lossState.history_.reduceOption
        ++ beingUndone lossState ++ lossState.undoCalls ∧
      lossState.history_ = [none] ∧
      ¬ NoLossNoDuplication markerCommand neverThrows := by
  have hrun : run markerCommand neverThrows lossSchedule (fresh 0) = some lossState := by
    decide
  have hr : Reachable markerCommand neverThrows ["A", "B"] lossState :=
    reachable_of_run markerCommand neverThrows lossSchedule 0 _ (by decide) hrun
  refine ⟨hrun, hr, by decide, by decide, rfl, ?_⟩
  intro hclaim
  have hp := hclaim ["A", "B"] lossState hr
  have hmem : "B" ∈ lossState.commandQueue_ ++ inHand lossState
      ++ lossState.history_.reduceOption ++ beingUndone lossState ++ lossState.undoCalls :=
    hp.mem_iff.mp (by decide)
  revert hmem
  decide

/-- C7, as stated, fails, in two ways. Once "A" is executed and before line 118 has
run, the `execute` call on "A" has returned and "A" has not been pushed onto the
history. And when the `execute` call on "A" fails, the call is over and "A" is not
pushed: the consumer has left `processCommands`. -/
theorem pushed_iff_returned_fails :
    ¬ PushedIffReturned markerCommand ∧
      (Reachable markerCommand throwsOnA ["A", "B"] thrownState ∧
        thrownState.consumer = Consumer.thrown "A" ∧ "A" ∉ thrownState.pushCalls ∧
        some "A" ∉ thrownState.history_) := by
  refine ⟨?_, ?_, rfl, by decide, by decide⟩
  · intro hclaim
    have hr : Reachable markerCommand neverThrows ["A"] executedNotPushed :=
      reachable_of_run markerCommand neverThrows
        [ProgramStep.addCommand "A", ProgramStep.consumer, ProgramStep.consumer] 0 _
        (by decide) (by decide)
    have := (hclaim neverThrows ["A"] executedNotPushed hr "A").mpr (Or.inl (by decide))
    revert this
    decide
  · exact reachable_of_run markerCommand throwsOnA thrownSchedule 0 _ (by decide) (by decide)

/-- C7, amended. In every reachable state a command has been pushed onto the history
only if its `execute` call has returned; a command whose `execute` call has returned
has been pushed, or it is the one command the consumer has just executed, and then
the next step of the consumer is the push of line 118. A call of `execute` that
fails (it throws) is followed by no push: the consumer leaves `processCommands` with
the history, the push log and the queue as they were, and the command it threw on
is in neither log nor in the history, and the consumer steps no more. The history
changes in three ways only: a step of the consumer pushes the command it has
executed, line 128 of `undoLastCommand` leaves the top entry null, line 129 of
`undoLastCommand` pops the top entry. -/
theorem history_records_completed (V : Command C W) (throws : C → W → Bool) (sub : List C)
    (s : Program C W) (h : Reachable V throws sub s) :
    (∀ c, c ∈ s.pushCalls → c ∈ s.executeCalls) ∧
      (∀ c, c ∈ s.executeCalls → c ∈ s.pushCalls ∨ s.consumer = Consumer.executed c) ∧
      (∀ c, s.consumer = Consumer.executed c →
        step V throws ProgramStep.consumer s = some { s with
          history_ := some c :: s.history_
          pushCalls := s.pushCalls ++ [c]
          consumer := Consumer.waiting }) ∧
      (∀ c, s.consumer = Consumer.holding c → throws c s.world = true →
        ∃ s', step V throws ProgramStep.consumer s = some s' ∧
          s'.consumer = Consumer.thrown c ∧ s'.history_ = s.history_ ∧
          s'.pushCalls = s.pushCalls ∧ s'.executeCalls = s.executeCalls ∧
          s'.commandQueue_ = s.commandQueue_) ∧
      (∀ c, s.consumer = Consumer.thrown c →
        c ∉ s.pushCalls ∧ c ∉ s.executeCalls ∧ some c ∉ s.history_ ∧
          step V throws ProgramStep.consumer s = none) ∧
      (∀ a s', step V throws a s = some s' →
        s'.history_ = s.history_ ∨
          (∃ c, a = ProgramStep.consumer ∧ s.consumer = Consumer.executed c ∧
            c ∈ s.executeCalls ∧ s'.history_ = some c :: s.history_) ∨
          (∃ i top rest, a = ProgramStep.undoNext i ∧ s.history_ = top :: rest ∧
            (s'.history_ = none :: rest ∨ s'.history_ = rest))) := by
  obtain ⟨hnd, hsub, hex, hsl⟩ := reachable_invariant V throws sub s h
  have hpushed : ∀ c, c ∈ s.pushCalls → c ∈ s.executeCalls := by
    intro c hc
    rw [hex]
    exact List.mem_append_left _ hc
  have htoPush : ∀ c, c ∈ toPush s ↔ s.consumer = Consumer.executed c := by
    intro c
    unfold toPush
    cases s.consumer <;> simp [eq_comm]
  refine ⟨hpushed, ?_, ?_, ?_, ?_, ?_⟩
  · intro c hc
    rw [hex, List.mem_append, htoPush] at hc
    exact hc
  · intro c hc
    simp only [step, hc]
  · intro c hc ht
    simp only [step, hc, ht, if_true]
    exact ⟨_, rfl, rfl, rfl, rfl, rfl, rfl⟩
  · intro c hc
    have hne : c ∉ s.executeCalls := by
      have hfl : inFlight s = [c] := by simp [inFlight, hc]
      rw [hsub, hfl, List.append_assoc] at hnd
      intro hm
      exact (List.nodup_append.mp hnd).2.2 hm (by simp)
    refine ⟨fun hm => hne (hpushed c hm), hne, ?_, by simp only [step, hc]⟩
    intro hm
    have : c ∈ s.history_.reduceOption := List.reduceOption_mem_iff.mpr hm
    exact hne (hpushed c (hsl.subset (List.mem_reverse.mpr this)))
  · intro a s' hstep
    obtain ⟨hi, q, st, co, un, wd, out, ex, pu, ud⟩ := s
    cases a with
    | addCommand cmd =>
      simp only [step, Option.some.injEq] at hstep
      subst hstep
      exact Or.inl rfl
    | stop =>
      simp only [step, Option.some.injEq] at hstep
      subst hstep
      exact Or.inl rfl
    | consumer =>
      cases co with
      | waiting =>
        cases q with
        | nil =>
          cases st <;> simp [step] at hstep
          subst hstep
          exact Or.inl rfl
        | cons c t =>
          simp [step] at hstep
          subst hstep
          exact Or.inl rfl
      | holding c =>
        simp only [step] at hstep
        split at hstep <;>
        · simp only [Option.some.injEq] at hstep
          subst hstep
          exact Or.inl rfl
      | executed c =>
        simp only [step, Option.some.injEq] at hstep
        subst hstep
        refine Or.inr (Or.inl ⟨c, rfl, rfl, ?_, rfl⟩)
        simp only at hex
        rw [hex]
        simp [toPush]
      | returned => simp [step] at hstep
      | thrown c => simp [step] at hstep
    | undoLastCommand =>
      simp only [step] at hstep
      split at hstep <;>
      · simp only [Option.some.injEq] at hstep
        subst hstep
        exact Or.inl rfl
    | undoNext i =>
      simp only [step] at hstep
      split at hstep
      · split at hstep
        · rename_i top rest
          simp only [Option.some.injEq] at hstep
          subst hstep
          exact Or.inr (Or.inr ⟨i, top, rest, rfl, rfl, Or.inl rfl⟩)
        · cases hstep
      · split at hstep
        · rename_i top rest
          simp only [Option.some.injEq] at hstep
          subst hstep
          exact Or.inr (Or.inr ⟨i, top, rest, rfl, rfl, Or.inr rfl⟩)
        · cases hstep
      · simp only [Option.some.injEq] at hstep
        subst hstep
        exact Or.inl rfl
      · cases hstep
      · cases hstep

/-- C7 amended, at the state where "A" is executed and not yet pushed, and at the
state where `execute` has thrown on "A". -/
theorem history_records_completed_witness :
    (Reachable markerCommand neverThrows ["A"] executedNotPushed ∧
      ("A" ∈ executedNotPushed.executeCalls →
        "A" ∈ executedNotPushed.pushCalls ∨
          executedNotPushed.consumer = Consumer.executed "A")) ∧
    (Reachable markerCommand throwsOnA ["A", "B"] thrownState ∧
      (thrownState.consumer = Consumer.thrown "A" →
        "A" ∉ thrownState.pushCalls ∧ "A" ∉ thrownState.executeCalls ∧
          some "A" ∉ thrownState.history_ ∧
          step markerCommand throwsOnA ProgramStep.consumer thrownState = none)) :=
  have hr1 : Reachable markerCommand neverThrows ["A"] executedNotPushed :=
    reachable_of_run markerCommand neverThrows
      [ProgramStep.addCommand "A", ProgramStep.consumer, ProgramStep.consumer] 0 _
      (by decide) (by decide)
  have hr2 : Reachable markerCommand throwsOnA ["A", "B"] thrownState :=
    reachable_of_run markerCommand throwsOnA thrownSchedule 0 _ (by decide) (by decide)
  ⟨⟨hr1, (history_records_completed markerCommand neverThrows _ _ hr1).2.1 "A"⟩,
    ⟨hr2, (history_records_completed markerCommand throwsOnA _ _ hr2).2.2.2.2.1 "A"⟩⟩

end Program

/-- C5, as stated, fails: after the first `undoLastCommand` the history still holds
"A", so the second one calls `undo` on "A" and reports no empty history. -/
theorem scenario_as_stated_fails : ¬ scenarioAsStated := by
  intro h
  have h4 := congrArg CommandManager.undoCalls h.2.2.2
  revert h4
  decide

/-- C5, amended. On a fresh manager, submitting "A" then "B", calling `stop` and
running `processCommands` to its return gives the execution log A, B and counter 2;
the first `undoLastCommand` gives the reversal log B, the second one the reversal
log B, A, and the third one reports the empty history and reverses nothing. -/
theorem scenario_as_run :
    scenarioJoined.worker = Worker.returned ∧
      scenarioJoined.executeCalls = ["A", "B"] ∧ scenarioJoined.world = 2 ∧
      (CommandManager.undoLastCommand markerCommand scenarioJoined).undoCalls = ["B"] ∧
      (CommandManager.undoLastCommand markerCommand
        (CommandManager.undoLastCommand markerCommand scenarioJoined)).undoCalls
        = ["B", "A"] ∧
      CommandManager.undoLastCommand markerCommand
          (CommandManager.undoLastCommand markerCommand
            (CommandManager.undoLastCommand markerCommand scenarioJoined))
        = { CommandManager.undoLastCommand markerCommand
              (CommandManager.undoLastCommand markerCommand scenarioJoined) with
            cout := (CommandManager.undoLastCommand markerCommand
              (CommandManager.undoLastCommand markerCommand scenarioJoined)).cout
                ++ ["История команд пуста"] } := by
  refine ⟨rfl, rfl, rfl, rfl, rfl, rfl⟩

/-! ## Theorems: the sorting strategies -/

theorem sizeSub_eq (a b : Nat) (ha : a < SIZE_MODULUS) (hb : b ≤ a) : sizeSub a b = a - b := by
  unfold sizeSub
  have hb' : b < SIZE_MODULUS := lt_of_le_of_lt hb ha
  rw [Nat.mod_eq_of_lt ha, Nat.mod_eq_of_lt hb']
  have : a + SIZE_MODULUS - b = (a - b) + SIZE_MODULUS := by omega
  rw [this, Nat.add_mod_right, Nat.mod_eq_of_lt (by omega)]

theorem sizeAdd_eq (a b : Nat) (h : a + b < SIZE_MODULUS) : sizeAdd a b = a + b :=
  Nat.mod_eq_of_lt h

theorem getElem?_at_length (pre : List Int) (a : Int) (rest : List Int) :
    (pre ++ a :: rest)[pre.length]? = some a := by
  rw [List.getElem?_append_right (le_refl _)]
  simp

theorem set_at_length (pre : List Int) (a x : Int) (rest : List Int) :
    (pre ++ a :: rest).set pre.length x = pre ++ x :: rest := by
  simp

/-- On the empty vector the bound `data.size() - 0 - 1` of the inner loop would wrap
to the greatest `size_t`. -/
theorem bound_wraps_on_empty_vector :
    sizeSub (sizeSub ([] : List Int).length 0) 1 = SIZE_MODULUS - 1 := by
  decide

namespace BubbleSortStrategy

/-- One pass of the inner loop, from the index `pre.length` where `a` stands to the
bound: it ends, reads inside the vector only, and carries the greatest of `a :: mid`
to the bound, leaving what is before and after as it was. -/
theorem sortInner_spec (i : Nat) (mid : List Int) :
    ∀ (fuel : Nat) (pre : List Int) (a : Int) (suf : List Int),
      (pre ++ a :: (mid ++ suf)).length < SIZE_MODULUS → suf.length = i →
      mid.length + 1 ≤ fuel →
      ∃ (init : List Int) (m : Int),
        sortInner i fuel pre.length (pre ++ a :: (mid ++ suf))
          = SortResult.done (pre ++ (init ++ m :: suf)) ∧
        (init ++ [m]).Perm (a :: mid) ∧ (∀ x ∈ init, x ≤ m) := by
  induction mid with
  | nil =>
    intro fuel pre a suf hlen hsuf hfuel
    obtain ⟨f, rfl⟩ : ∃ f, fuel = f + 1 := ⟨fuel - 1, by simp at hfuel; omega⟩
    refine ⟨[], a, ?_, by simp, by simp⟩
    have hb : sizeSub (sizeSub (pre ++ a :: ([] ++ suf)).length i) 1 = pre.length := by
      rw [sizeSub_eq _ _ hlen (by simp; omega), sizeSub_eq _ _ (by omega) (by simp; omega)]
      simp; omega
    rw [sortInner, hb, if_neg (lt_irrefl _)]
    simp
  | cons b t ih =>
    intro fuel pre a suf hlen hsuf hfuel
    obtain ⟨f, rfl⟩ : ∃ f, fuel = f + 1 := ⟨fuel - 1, by simp at hfuel; omega⟩
    have hb : sizeSub (sizeSub (pre ++ a :: (b :: t ++ suf)).length i) 1
        = pre.length + t.length + 1 := by
      rw [sizeSub_eq _ _ hlen (by simp; omega), sizeSub_eq _ _ (by omega) (by simp; omega)]
      simp; omega
    have hj : sizeAdd pre.length 1 = pre.length + 1 := by
      apply sizeAdd_eq
      simp at hlen
      omega
    have hr1 : (pre ++ a :: (b :: t ++ suf))[pre.length]? = some a := getElem?_at_length _ _ _
    have hr2 : (pre ++ a :: (b :: t ++ suf))[pre.length + 1]? = some b := by
      have := getElem?_at_length (pre ++ [a]) b (t ++ suf)
      simpa using this
    have hlt : pre.length < pre.length + t.length + 1 := by omega
    by_cases hab : a > b
    · have hswap : ((pre ++ a :: (b :: t ++ suf)).set pre.length b).set (pre.length + 1) a
          = (pre ++ [b]) ++ a :: (t ++ suf) := by
        rw [List.cons_append, set_at_length]
        simp
      obtain ⟨init, m, hrun, hperm, hmax⟩ := ih f (pre ++ [b]) a suf
        (by simpa using hlen) hsuf (by simp at hfuel; omega)
      refine ⟨b :: init, m, ?_, ?_, ?_⟩
      · rw [sortInner, hb, if_pos hlt, hj, hr1, hr2]
        simp only [hab, if_true]
        rw [hswap]
        have : (pre ++ [b]).length = pre.length + 1 := by simp
        rw [← this, hrun]
        simp
      · exact (List.Perm.cons b hperm).trans (List.Perm.swap a b t)
      · intro x hx
        have ham : a ≤ m := by
          have : a ∈ init ++ [m] := hperm.mem_iff.mpr (List.mem_cons_self a t)
          rcases List.mem_append.mp this with h | h
          · exact hmax a h
          · simp at h; omega
        rcases List.mem_cons.mp hx with rfl | h
        · omega
        · exact hmax x h
    · obtain ⟨init, m, hrun, hperm, hmax⟩ := ih f (pre ++ [a]) b suf
        (by simpa using hlen) hsuf (by simp at hfuel; omega)
      refine ⟨a :: init, m, ?_, ?_, ?_⟩
      · rw [sortInner, hb, if_pos hlt, hj, hr1, hr2]
        simp only [hab, if_false]
        have : (pre ++ [a]).length = pre.length + 1 := by simp
        have e : pre ++ a :: (b :: t ++ suf) = (pre ++ [a]) ++ b :: (t ++ suf) := by simp
        rw [← this, e, hrun]
        simp
      · exact List.Perm.cons a hperm
      · intro x hx
        have hbm : b ≤ m := by
          have : b ∈ init ++ [m] := hperm.mem_iff.mpr (List.mem_cons_self b t)
          rcases List.mem_append.mp this with h | h
          · exact hmax b h
          · simp at h; omega
        rcases List.mem_cons.mp hx with rfl | h
        · omega
        · exact hmax x h

/-- The outer loop from the pass `tail.length` on, when the last `tail.length`
elements are in order and not below any of the elements before them: it ends,
reads inside the vector only, and leaves the vector in ascending order. -/
theorem sortOuter_spec (n : Nat) :
    ∀ (front tail : List Int) (fuel : Nat), front.length = n →
      (front ++ tail).length < SIZE_MODULUS → front.length + 1 ≤ fuel →
      tail.Sorted (· ≤ ·) → (∀ x ∈ front, ∀ y ∈ tail, x ≤ y) →
      ∃ res, sortOuter fuel tail.length (front ++ tail) = SortResult.done res ∧
        res.Perm (front ++ tail) ∧ res.Sorted (· ≤ ·) := by
  induction n with
  | zero =>
    intro front tail fuel hn hlen hfuel hsorted hle
    obtain ⟨f, rfl⟩ : ∃ f, fuel = f + 1 := ⟨fuel - 1, by omega⟩
    have : front = [] := List.length_eq_zero.mp hn
    subst this
    refine ⟨tail, ?_, List.Perm.refl _, hsorted⟩
    simp [sortOuter]
  | succ k ih =>
    intro front tail fuel hn hlen hfuel hsorted hle
    obtain ⟨f, rfl⟩ : ∃ f, fuel = f + 1 := ⟨fuel - 1, by omega⟩
    cases front with
    | nil => simp at hn
    | cons a mid =>
      have hmid : mid.length = k := by simpa using hn
      obtain ⟨init, m, hrun, hperm, hmax⟩ := sortInner_spec tail.length mid f [] a tail
        (by simpa using hlen) rfl (by simp at hfuel; omega)
      have hinit : init.length = k := by
        have := hperm.length_eq
        simp at this
        omega
      have hmfront : m ∈ a :: mid := hperm.mem_iff.mp (by simp)
      have hinitfront : ∀ x ∈ init, x ∈ a :: mid := fun x hx =>
        hperm.mem_iff.mp (List.mem_append_left _ hx)
      have hi : sizeAdd tail.length 1 = (m :: tail).length := by
        rw [List.length_cons]
        apply sizeAdd_eq
        simp at hlen
        omega
      obtain ⟨res, hres, hrperm, hrsorted⟩ := ih init (m :: tail) f hinit
        (by
          simp only [List.length_append, List.length_cons] at hlen ⊢
          omega)
        (by simp at hfuel; omega)
        (List.sorted_cons.mpr ⟨fun y hy => hle m hmfront y hy, hsorted⟩)
        (by
          intro x hx y hy
          rcases List.mem_cons.mp hy with rfl | hy
          · exact hmax x hx
          · exact hle x (hinitfront x hx) y hy)
      refine ⟨res, ?_, ?_, hrsorted⟩
      · have hlt : tail.length < (a :: mid ++ tail).length := by simp; omega
        rw [sortOuter, if_pos hlt]
        simp only [List.length_nil, List.nil_append] at hrun
        rw [List.cons_append, hrun]
        simp only
        rw [hi]
        exact hres
      · refine hrperm.trans ?_
        have : (init ++ m :: tail) = (init ++ [m]) ++ tail := by simp
        rw [this]
        exact List.Perm.append_right tail hperm

/-- C10. For every vector (of fewer than `2 ^ 64` elements, as every `std::vector`
is), the empty and the one-element ones too, `BubbleSortStrategy::sort` ends (any
fuel above the length is enough), reads `data[j]` and `data[j + 1]` inside the
vector only, and leaves the vector as the ascending permutation of its content,
which is what `QuickSortStrategy::sort` leaves. In every pass that runs, the
`size_t` bound `data.size() - i - 1` is the true difference: it has not wrapped. -/
theorem sort_sorts (data : List Int) (fuel : Nat)
    (hsize : data.length < SIZE_MODULUS) (hfuel : data.length + 1 ≤ fuel) :
    sort fuel data = SortResult.done (QuickSortStrategy.sort data) ∧
      (QuickSortStrategy.sort data).Perm data ∧
      (QuickSortStrategy.sort data).Sorted (· ≤ ·) ∧
      (∀ i, i < data.length → sizeSub (sizeSub data.length i) 1 + i + 1 = data.length) := by
  obtain ⟨res, hres, hperm, hsorted⟩ := sortOuter_spec data.length data [] fuel rfl
    (by simpa using hsize) hfuel List.sorted_nil (by simp)
  have hq : res = QuickSortStrategy.sort data := by
    apply List.eq_of_perm_of_sorted _ hsorted (List.sorted_insertionSort _ _)
    refine hperm.trans ?_
    rw [List.append_nil]
    exact (List.perm_insertionSort _ _).symm
  refine ⟨?_, List.perm_insertionSort _ _, List.sorted_insertionSort _ _, ?_⟩
  · rw [← hq]
    simpa [sort] using hres
  · intro i hi
    rw [sizeSub_eq _ _ hsize (le_of_lt hi), sizeSub_eq _ _ (by omega) (by omega)]
    omega

/-- C10, at a vector of three elements, at the empty vector and at a one-element one. -/
theorem sort_sorts_witness :
    sort 4 [3, 1, 2] = SortResult.done [1, 2, 3] ∧
      sort 1 [] = SortResult.done [] ∧ sort 2 [7] = SortResult.done [7] :=
  ⟨(sort_sorts [3, 1, 2] 4 (by decide) (by decide)).1,
    (sort_sorts [] 1 (by decide) (by decide)).1,
    (sort_sorts [7] 2 (by decide) (by decide)).1⟩

end BubbleSortStrategy

/-! ## Theorems: the mutex -/

namespace Threaded

variable {C W : Type}

theorem callerLocked_step (V : Command C W) (a : ThreadAction C) (s s' : Threaded C W)
    (hinv : CallerLocked s) (h : step V a s = some s') : CallerLocked s' := by
  obtain ⟨m, mu, ca⟩ := s
  obtain ⟨hadd, hstop⟩ := hinv
  simp only at hadd hstop
  cases a with
  | consumer =>
    simp only [step] at h
    split at h
    · split at h
      · cases h
        refine ⟨fun cmd hc => ?_, fun hc => ?_⟩
        · cases hadd cmd hc
        · cases hstop hc
      · split at h <;>
        · cases h
          refine ⟨fun cmd hc => ?_, fun hc => ?_⟩
          · cases hadd cmd hc
          · cases hstop hc
      · cases h
    · cases hw : CommandManager.workerStep V m with
      | none => simp [hw] at h
      | some m' =>
        simp only [hw, Option.map_some', Option.some.injEq] at h
        subst h
        exact ⟨hadd, hstop⟩
  | addCommand cmd =>
    simp only [step] at h
    split at h
    · cases h
      exact ⟨fun _ _ => rfl, fun _ => rfl⟩
    · cases h
  | stop =>
    simp only [step] at h
    split at h
    · cases h
      exact ⟨fun _ _ => rfl, fun _ => rfl⟩
    · cases h
  | undoLastCommand =>
    simp only [step] at h
    split at h
    · split at h <;>
      · cases h
        refine ⟨fun cmd hc => ?_, fun hc => ?_⟩ <;> simp_all
    · cases h
  | proceed =>
    simp only [step] at h
    split at h <;> cases h <;>
      exact ⟨fun cmd hc => (by cases hc), fun hc => (by cases hc)⟩

theorem callerLocked_run (V : Command C W) (schedule : List (ThreadAction C)) :
    ∀ (s s' : Threaded C W), CallerLocked s → run V schedule s = some s' → CallerLocked s' := by
  induction schedule with
  | nil =>
    intro s s' hinv h
    simp only [run, Option.some.injEq] at h
    exact h ▸ hinv
  | cons a rest ih =>
    intro s s' hinv h
    simp only [run] at h
    cases hs : step V a s with
    | none => simp [hs] at h
    | some s1 =>
      simp only [hs] at h
      exact ih s1 s' (callerLocked_step V a s s1 hinv hs) h

/-- The mutex does its work on the queue: every step that changes `commandQueue_`
(`addCommand`, the dequeue of lines 112-113) is taken with `mutex_` in hand. -/
theorem queue_guarded (V : Command C W) (w : W) : QueueGuarded V w := by
  intro schedule s s' a hrun hstep hne
  have hinv : CallerLocked s :=
    callerLocked_run V schedule (fresh w) s
      ⟨fun _ hc => (by cases hc), fun hc => (by cases hc)⟩ hrun
  obtain ⟨m, mu, ca⟩ := s
  obtain ⟨hadd, hstop⟩ := hinv
  simp only at hadd hstop hne
  cases a with
  | consumer =>
    simp only [step] at hstep
    split at hstep
    · split at hstep
      · cases hstep
        exact absurd rfl hne
      · rfl
      · cases hstep
    · rename_i hnw
      cases hw : CommandManager.workerStep V m with
      | none => simp [hw] at hstep
      | some m' =>
        simp only [hw, Option.map_some', Option.some.injEq] at hstep
        subst hstep
        exfalso
        apply hne
        rcases CommandManager.workerStep_cases V m m' hw with ⟨h1, _, _, _⟩ | ⟨c, r, h1, _, _⟩ |
          ⟨c, _, rfl⟩ | ⟨c, _, rfl⟩
        · exact absurd h1 hnw
        · exact absurd h1 hnw
        · rfl
        · rfl
  | addCommand cmd =>
    simp only [step] at hstep
    split at hstep
    · cases hstep
      exact absurd rfl hne
    · cases hstep
  | stop =>
    simp only [step] at hstep
    split at hstep
    · cases hstep
      exact absurd rfl hne
    · cases hstep
  | undoLastCommand =>
    simp only [step] at hstep
    split at hstep
    · split at hstep
      · cases hstep
        exfalso
        apply hne
        show (CommandManager.undoLastCommand V m).commandQueue_ = m.commandQueue_
        unfold CommandManager.undoLastCommand
        cases m.history_ <;> rfl
      · cases hstep
        exact absurd rfl hne
    · cases hstep
  | proceed =>
    simp only [step] at hstep
    split at hstep
    · exact hadd _ rfl
    · exact hstop rfl
    · cases hstep
      exfalso
      apply hne
      show (CommandManager.undoLastCommand V m).commandQueue_ = m.commandQueue_
      unfold CommandManager.undoLastCommand
      cases m.history_ <;> rfl
    · cases hstep

/-- C9, on the code. After `raceSchedule` the mutex is free, the next step of the
consumer pushes "B" onto `history_` and the next step of the calling thread pops "A"
from it: both steps can be taken, in either order, and neither thread holds a lock.
So the history is not guarded, while the queue of the same manager is. -/
theorem history_push_pop_unguarded :
    run markerCommand raceSchedule (fresh 0) = some raceState ∧
      raceState.mutex_ = none ∧
      (step markerCommand ThreadAction.consumer raceState).map (fun s => s.manager.history_)
        = some ["B", "A"] ∧
      (step markerCommand ThreadAction.proceed raceState).map (fun s => s.manager.history_)
        = some [] ∧
      ((step markerCommand ThreadAction.consumer raceState).bind
          (step markerCommand ThreadAction.proceed)).map (fun s => s.manager.history_)
        = some ["A"] ∧
      ((step markerCommand ThreadAction.proceed raceState).bind
          (step markerCommand ThreadAction.consumer)).map (fun s => s.manager.history_)
        = some ["B"] ∧
      ¬ HistoryGuarded markerCommand 0 ∧ QueueGuarded markerCommand 0 := by
  have hrun : run markerCommand raceSchedule (fresh 0) = some raceState := by decide
  refine ⟨hrun, rfl, by decide, by decide, by decide, by decide, ?_,
    queue_guarded markerCommand 0⟩
  intro hg
  have := hg raceSchedule raceState _ ThreadAction.consumer hrun rfl (by decide)
  revert this
  decide

end Threaded
